import Mathlib

/-
  Verification of the catalog store and reconciler of the filetag explorer
  (src/app.py and src/tagfile-c.py).

  Shallow embedding conventions:
  * The SQLite database file is modelled by the `DB` structure: one list per
    table.  `INTEGER PRIMARY KEY` id assignment is modelled by the counters
    `nextFileId` / `nextTagId`.  `roots.last_scanned` is never read by any
    claim and is not modelled (it would need a wall clock).
  * `REAL` modification times enter every claim only through order
    comparisons and maxima, so they are modelled by `Int`.
  * The filesystem is modelled by `Disk`, a list of the regular files that
    exist (path with stat data).  `os.walk` enumerations are passed in as
    `List WalkEntry` parameters: the walk order, a per-file flag for a
    failing `os.path.getmtime`, and a per-file flag for a raising DB upsert.
  * `normalize_path` wraps `os.path.normpath` (plus a drive-letter fix),
    a host primitive; it is passed to each operation as a parameter
    `norm : String → String`.  Likewise `str(Path(p))` is folded into it.
  * SQLite `LIKE` is modelled by `likeMatch`: `%` matches any span, `_` any
    single character, an optional `ESCAPE` character forces the following
    pattern character to be literal, and ASCII letters compare
    case-insensitively (SQLite's default `like`).  Equality comparisons
    (`path = ?`, `name = ?`, `ON CONFLICT`) use SQLite's BINARY collation,
    i.e. plain string equality.
-/

/-- SQLite's default `like` folds only ASCII `A`-`Z` to lower case. -/
def asciiLower (c : Char) : Char :=
  if 'A' ≤ c ∧ c ≤ 'Z' then Char.ofNat (c.toNat + 32) else c

/-- Character comparison used by SQLite `LIKE`: ASCII-case-insensitive. -/
def likeCharEq (a b : Char) : Bool :=
  asciiLower a = asciiLower b

/-- All suffixes of a list, longest first (including the list itself and `[]`). -/
def suffixes : List Char → List (List Char)
  | [] => [[]]
  | c :: cs => (c :: cs) :: suffixes cs

/-- SQLite `LIKE` pattern matching with an optional `ESCAPE` character.
    `%` matches any (possibly empty) span, `_` exactly one character, an
    escaped character is matched literally; ordinary characters compare
    ASCII-case-insensitively. -/
def likeMatch (esc : Option Char) : List Char → List Char → Bool
  | [], t => t.isEmpty
  | p :: ps, t =>
    if some p = esc then
      match ps, t with
      | q :: ps2, c :: ts => likeCharEq q c && likeMatch esc ps2 ts
      | _, _ => false
    else if p = '%' then
      (suffixes t).any (fun t2 => likeMatch esc ps t2)
    else if p = '_' then
      match t with
      | [] => false
      | _ :: ts => likeMatch esc ps ts
    else
      match t with
      | [] => false
      | c :: ts => likeCharEq p c && likeMatch esc ps ts

/-- The wildcard escaping performed by `count_files_under` in app.py:
    `root.replace("\\", "\\\\").replace("%", r"\%").replace("_", r"\_")`.
    The three chained single-character replacements amount to this
    per-character mapping. -/
def escapeLikeChars : List Char → List Char
  | [] => []
  | c :: cs =>
    (if c = '\\' ∨ c = '%' ∨ c = '_' then ['\\', c] else [c]) ++ escapeLikeChars cs

/-- ASCII-case-insensitive "starts with" on character lists (the semantics a
    `LIKE` prefix pattern has once its wildcards are escaped). -/
def ciPref : List Char → List Char → Bool
  | [], _ => true
  | _ :: _, [] => false
  | c :: cs, d :: ds => likeCharEq c d && ciPref cs ds

/-- A regular file that exists on disk, with its stat data. -/
structure DiskFile where
  path : String
  size : Nat
  mtime : Int
deriving DecidableEq

/-- The filesystem: the set of existing regular files. -/
def Disk := List DiskFile

/-- A row of the `files` table.  The `hash` column exists in the schema but
    is never populated by the code. -/
structure FileRow where
  id : Nat
  path : String
  size : Nat
  mtime : Int
  hash : Option String
deriving DecidableEq

/-- A row of the `tags` table. -/
structure TagRow where
  id : Nat
  name : String
  ord : Int
deriving DecidableEq

/-- The database state: `files`, `tags`, `file_tags`, `roots` (the
    `last_scanned` column is not modelled), and the id supply of the two
    `INTEGER PRIMARY KEY` columns. -/
structure DB where
  files : List FileRow
  tags : List TagRow
  fileTags : List (Nat × Nat)
  roots : List String
  nextFileId : Nat
  nextTagId : Nat
deriving DecidableEq

/-- One file yielded by an `os.walk` enumeration.  `statFails` models a
    raising `os.path.getmtime` during the counting walk; `upsertFails`
    models a raising `upsert_file` during the scanning walk. -/
structure WalkEntry where
  path : String
  statFails : Bool
  upsertFails : Bool
deriving DecidableEq

/-- The Qt signals emitted around a scan: `scan_started`, `progress_tick`
    and `scan_finished`. -/
inductive Event where
  | started : Nat → Event
  | tick : Nat → Nat → Event
  | finished : Event
deriving DecidableEq

/-- Python `str.strip()` on the whitespace kinds relevant here: drop
    leading and trailing whitespace characters. -/
def stripStr (s : String) : String :=
  ⟨((s.data.dropWhile Char.isWhitespace).reverse.dropWhile Char.isWhitespace).reverse⟩

/-- Does a file with this exact path exist on disk (`Path(p).is_file()` /
    `Path(p).exists()` for the catalogued regular files)? -/
def diskFind (disk : Disk) (p : String) : Option DiskFile :=
  List.find? (fun f => f.path = p) disk

namespace App

/-- app.py `upsert_file`: no-op unless the path is an existing regular
    file; otherwise `INSERT INTO files(path,size,mtime,hash)
    VALUES(?,?,?,NULL) ON CONFLICT(path) DO UPDATE SET size=excluded.size,
    mtime=excluded.mtime` keyed on the normalized path. -/
def upsert_file (norm : String → String) (disk : Disk) (db : DB) (path : String) : DB :=
  match diskFind disk path with
  | none => db
  | some st =>
    let full := norm path
    match List.find? (fun r => r.path = full) db.files with
    | some _ =>
      { db with files :=
          db.files.map (fun r =>
            if r.path = full then { r with size := st.size, mtime := st.mtime } else r) }
    | none =>
      { db with
          files := db.files ++ [⟨db.nextFileId, full, st.size, st.mtime, none⟩],
          nextFileId := db.nextFileId + 1 }

/-- app.py `remove_missing_under`: select ids and paths of rows with
    `path LIKE '{root}%'` (no ESCAPE), delete each whose path no longer
    exists on disk, return the number removed.  Deleting a `files` row
    cascades its `file_tags` rows (`PRAGMA foreign_keys = ON`). -/
def remove_missing_under (norm : String → String) (disk : Disk) (db : DB)
    (root : String) : DB × Nat :=
  let r := norm root
  let isGone : FileRow → Bool := fun f =>
    likeMatch none (r.data ++ ['%']) f.path.data && (diskFind disk f.path).isNone
  let gone := db.files.filter isGone
  ({ db with
      files := db.files.filter (fun f => !isGone f),
      fileTags := db.fileTags.filter (fun p => !(gone.any (fun g => g.id = p.1))) },
   gone.length)

/-- Largest existing `ord` value: `COALESCE(MAX(ord),0)`. -/
def maxOrd (tags : List TagRow) : Int :=
  match tags with
  | [] => 0
  | t :: ts => ts.foldl (fun m x => max m x.ord) t.ord

/-- app.py `ensure_tag`: strip the name; empty is a no-op returning no id;
    otherwise `INSERT OR IGNORE INTO tags(name,ord)` with
    `ord = COALESCE(MAX(ord),0)+1`, then return the id of the row with
    that name. -/
def ensure_tag (db : DB) (name : String) : DB × Option Nat :=
  let nm := stripStr name
  if nm = "" then (db, none)
  else
    let nxt := maxOrd db.tags + 1
    match List.find? (fun t => t.name = nm) db.tags with
    | some t => (db, some t.id)
    | none =>
      ({ db with
          tags := db.tags ++ [⟨db.nextTagId, nm, nxt⟩],
          nextTagId := db.nextTagId + 1 },
       some db.nextTagId)

/-- app.py `count_files_under`: counts rows matching
    `path LIKE '{escaped root}%' ESCAPE '\'` where the root had its
    `\`, `%`, `_` characters escaped. -/
def count_files_under (norm : String → String) (db : DB) (root : String) : Nat :=
  let r := norm root
  (db.files.filter (fun f =>
    likeMatch (some '\\') (escapeLikeChars r.data ++ ['%']) f.path.data)).length

/-- `COALESCE(MAX(mtime),0)` over a selection of rows. -/
def coalesceMaxMtime (rows : List FileRow) : Int :=
  match rows with
  | [] => 0
  | r :: rs => rs.foldl (fun m x => max m x.mtime) r.mtime

/-- app.py `db_count_and_max_mtime_under`:
    `SELECT COUNT(*), COALESCE(MAX(mtime),0) FROM files WHERE path LIKE
    '{root}%'` (no ESCAPE). -/
def db_count_and_max_mtime_under (norm : String → String) (db : DB)
    (root : String) : Nat × Int :=
  let r := norm root
  let sel := db.files.filter (fun f => likeMatch none (r.data ++ ['%']) f.path.data)
  (sel.length, coalesceMaxMtime sel)

/-- app.py `walk_count_and_max_mtime`: counts every file the walk yields;
    the running maximum starts at `0.0` and a file whose `getmtime` raises
    (or that vanished) is skipped for the maximum but still counted. -/
def walk_count_and_max_mtime (disk : Disk) (walk : List WalkEntry) : Nat × Int :=
  walk.foldl
    (fun (acc : Nat × Int) we =>
      let total := acc.1 + 1
      match (if we.statFails then none else diskFind disk we.path) with
      | some st => (total, max acc.2 st.mtime)
      | none => (total, acc.2))
    (0, 0)

/-- app.py `add_root`: upsert of the root path into `roots` (the
    `last_scanned` refresh is not modelled). -/
def add_root (norm : String → String) (db : DB) (path : String) : DB :=
  let p := norm path
  if db.roots.contains p then db else { db with roots := db.roots ++ [p] }

/-- app.py `remove_root`: `DELETE FROM roots WHERE path=?` then
    `DELETE FROM files WHERE path LIKE '{path}%'` (no ESCAPE), the file
    deletion cascading into `file_tags`. -/
def remove_root (norm : String → String) (db : DB) (path : String) : DB :=
  let p := norm path
  let isGone : FileRow → Bool := fun f => likeMatch none (p.data ++ ['%']) f.path.data
  let gone := db.files.filter isGone
  { db with
      roots := db.roots.filter (fun r => r ≠ p),
      files := db.files.filter (fun f => !isGone f),
      fileTags := db.fileTags.filter (fun q => !(gone.any (fun g => g.id = q.1))) }

/-- Insert a row into a list that is sorted by `path` (ascending). -/
def insertByPath (f : FileRow) : List FileRow → List FileRow
  | [] => [f]
  | g :: gs => if f.path ≤ g.path then f :: g :: gs else g :: insertByPath f gs

/-- `ORDER BY f.path ASC` (SQLite BINARY collation = code-point order). -/
def sortByPath : List FileRow → List FileRow
  | [] => []
  | f :: fs => insertByPath f (sortByPath fs)

/-- app.py `build_query` + `list_files`, as the row filter the generated SQL
    denotes: substring `LIKE` on the path when a search text is given,
    an `EXISTS` check when `only_tagged`, one `file_tags` self-join per
    selected tag id (conjunctive; `UNIQUE(file_id,tag_id)` makes each join
    factor match at most once), and an unescaped `LIKE` prefix on the root
    filter when one is given.  The result is ordered by path; the
    `GROUP_CONCAT` tag-name display column is presentation and not
    modelled. -/
def list_files (norm : String → String) (db : DB) (search_text : String)
    (tag_ids : List Nat) (only_tagged : Bool) (root_pre : Option String) :
    List FileRow :=
  sortByPath (db.files.filter (fun f =>
    (search_text = "" ||
      likeMatch none ('%' :: search_text.data ++ ['%']) f.path.data) &&
    (!only_tagged || db.fileTags.any (fun q => q.1 = f.id)) &&
    (tag_ids.all (fun tid => decide ((f.id, tid) ∈ db.fileTags))) &&
    (match root_pre with
     | none => true
     | some rp =>
       rp = "" || likeMatch none ((norm rp).data ++ ['%']) f.path.data)))

/-- Row-at-a-time `INSERT OR IGNORE` into `file_tags`
    (`UNIQUE(file_id, tag_id)`). -/
def insertIgnoreFT (fts : List (Nat × Nat)) (q : Nat × Nat) : List (Nat × Nat) :=
  if q ∈ fts then fts else fts ++ [q]

/-- app.py `MainUI._rename_or_merge_tag`: empty new name is a no-op.  If a
    different tag already has the new name, merge: `INSERT OR IGNORE` a
    `(file_id, new_tid)` row for every `(file_id, old_tid)` row, delete the
    old tag's `file_tags` rows, delete the old tag.  Otherwise plain
    `UPDATE tags SET name=?`. -/
def rename_or_merge_tag (db : DB) (old_tid : Nat) (new_name : String) : DB :=
  if new_name = "" then db
  else
    match List.find? (fun t => t.name = new_name) db.tags with
    | some t =>
      if t.id = old_tid then db
      else
        let adds := (db.fileTags.filter (fun q => q.2 = old_tid)).map
          (fun q => (q.1, t.id))
        let merged := adds.foldl insertIgnoreFT db.fileTags
        { db with
            fileTags := merged.filter (fun q => q.2 ≠ old_tid),
            tags := db.tags.filter (fun x => x.id ≠ old_tid) }
    | none =>
      { db with tags :=
          db.tags.map (fun x => if x.id = old_tid then { x with name := new_name } else x) }

/-- One iteration of a scan worker's inner loop: attempt the upsert (a
    raising upsert is swallowed by `except: pass`), advance the processed
    counter, emit a progress tick when `emit` says so.  The accumulator is
    (events, db, processed, attempted paths). -/
def scan_step (norm : String → String) (disk : Disk) (emit : Nat → Bool)
    (total : Nat) (acc : List Event × DB × Nat × List String) (we : WalkEntry) :
    List Event × DB × Nat × List String :=
  let evs := acc.1
  let db := acc.2.1
  let processed := acc.2.2.1 + 1
  let att := acc.2.2.2 ++ [we.path]
  let db2 := if we.upsertFails then db else upsert_file norm disk db we.path
  let evs2 := if emit processed then evs ++ [Event.tick processed total] else evs
  (evs2, db2, processed, att)

/-- app.py `MainUI.index_selected_root` from the point where
    `scan_running` has been set (the GUI guards before it are not part of
    the reconciliation): compare the disk fingerprint with the catalog
    fingerprint; on a match emit only `scan_finished`; otherwise emit
    `scan_started`, run the worker (add the root, upsert every walked file
    ticking every `max(1, total //100)` files and on the last one, prune
    missing rows), and emit `scan_finished` from the `finally`.  The same
    enumeration `walk` stands for both the counting walk and the worker's
    walk (the filesystem is taken as stable across the one call).  Returns
    (events, db, final processed counter, attempted upsert paths). -/
def index_selected_root (norm : String → String) (disk : Disk)
    (walk : List WalkEntry) (db : DB) (root : String) :
    List Event × DB × Nat × List String :=
  let r := norm root
  let fs := walk_count_and_max_mtime disk walk
  let ds := db_count_and_max_mtime_under norm db r
  if fs.1 = ds.1 ∧ ds.2 ≥ fs.2 then
    ([Event.finished], db, 0, [])
  else
    let step := max 1 (fs.1 / 100)
    let db1 := add_root norm db r
    let out := walk.foldl
      (scan_step norm disk (fun n => n % step == 0 || n == fs.1) fs.1)
      ([], db1, 0, [])
    let db2 := (remove_missing_under norm disk out.2.1 r).1
    (Event.started fs.1 :: out.1 ++ [Event.finished], db2, out.2.2.1, out.2.2.2)

/-- One root's portion of the rescan-all worker: add the root, walk it
    upserting with ticks every 500 files (and on file number `total`),
    then prune missing rows under it. -/
def rescan_root_step (norm : String → String) (disk : Disk)
    (walks : String → List WalkEntry) (total : Nat)
    (acc : List Event × DB × Nat × List String) (root : String) :
    List Event × DB × Nat × List String :=
  let db1 := add_root norm acc.2.1 root
  let out := (walks root).foldl
    (scan_step norm disk (fun n => n % 500 == 0 || n == total) total)
    (acc.1, db1, acc.2.2.1, acc.2.2.2)
  let db2 := (remove_missing_under norm disk out.2.1 root).1
  (out.1, db2, out.2.2.1, out.2.2.2)

/-- app.py `MainUI.rescan_all_roots` from the point where `scan_running`
    has been set: deduplicate the normalized registered roots, total the
    on-disk file counts, emit `scan_started` (with 1 instead of 0), walk
    every root upserting and pruning with one shared progress counter, and
    emit `scan_finished` from the `finally`.  With no registered roots
    nothing is emitted.  The source displays `total if total > 0 else 1`
    in each tick; since the same `walks` count the totals, a tick can only
    fire when `total > 0`, so passing `total` is equivalent.  Returns
    (events, db, processed, attempted). -/
def rescan_all_roots (norm : String → String) (disk : Disk)
    (walks : String → List WalkEntry) (db : DB) :
    List Event × DB × Nat × List String :=
  if db.roots = [] then ([], db, 0, [])
  else
    let uniq := (db.roots.map norm).eraseDups
    let total := (uniq.map (fun r => (walks r).length)).sum
    let out := uniq.foldl (rescan_root_step norm disk walks total) ([], db, 0, [])
    (Event.started (if total > 0 then total else 1) :: out.1 ++ [Event.finished],
     out.2.1, out.2.2.1, out.2.2.2)

end App

namespace TagfileC

/-- tagfile-c.py `DBManager.upsert_file`: identical SQL to app.py, with the
    normalization inlined in the execute call. -/
def upsert_file (norm : String → String) (disk : Disk) (db : DB) (path : String) : DB :=
  match diskFind disk path with
  | none => db
  | some st =>
    match List.find? (fun r => r.path = norm path) db.files with
    | some _ =>
      { db with files :=
          db.files.map (fun r =>
            if r.path = norm path then { r with size := st.size, mtime := st.mtime } else r) }
    | none =>
      { db with
          files := db.files ++ [⟨db.nextFileId, norm path, st.size, st.mtime, none⟩],
          nextFileId := db.nextFileId + 1 }

/-- tagfile-c.py `DBManager.count_and_stats`: with `is_disk` a walk count
    plus running maximum mtime (``(0, 0.0)`` when the root is falsy); else
    `SELECT COUNT(*), COALESCE(MAX(mtime),0)` restricted by an unescaped
    `LIKE '{root}%'` when a root is given, unrestricted otherwise.  The walk
    enumeration of the given root is the parameter `walk`. -/
def count_and_stats (norm : String → String) (disk : Disk) (walk : List WalkEntry)
    (db : DB) (root : Option String) (is_disk : Bool) : Nat × Int :=
  if is_disk then
    match root with
    | none => (0, 0)
    | some r =>
      if r = "" then (0, 0)
      else
        walk.foldl
          (fun (acc : Nat × Int) we =>
            let total := acc.1 + 1
            match (if we.statFails then none else diskFind disk we.path) with
            | some st => (total, max acc.2 st.mtime)
            | none => (total, acc.2))
          (0, 0)
  else
    match root with
    | none => (db.files.length, App.coalesceMaxMtime db.files)
    | some r =>
      if r = "" then (db.files.length, App.coalesceMaxMtime db.files)
      else
        let sel := db.files.filter (fun f =>
          likeMatch none ((norm r).data ++ ['%']) f.path.data)
        (sel.length, App.coalesceMaxMtime sel)

/-- tagfile-c.py `DBManager.remove_missing_under`: same statements as
    app.py's `remove_missing_under`. -/
def remove_missing_under (norm : String → String) (disk : Disk) (db : DB)
    (root : String) : DB × Nat :=
  let r := norm root
  let isGone : FileRow → Bool := fun f =>
    likeMatch none (r.data ++ ['%']) f.path.data && (diskFind disk f.path).isNone
  let gone := db.files.filter isGone
  ({ db with
      files := db.files.filter (fun f => !isGone f),
      fileTags := db.fileTags.filter (fun p => !(gone.any (fun g => g.id = p.1))) },
   gone.length)

/-- tagfile-c.py `DBManager.ensure_tag`: same statements as app.py's
    `ensure_tag`. -/
def ensure_tag (db : DB) (name : String) : DB × Option Nat :=
  let nm := stripStr name
  if nm = "" then (db, none)
  else
    let nxt := App.maxOrd db.tags + 1
    match List.find? (fun t => t.name = nm) db.tags with
    | some t => (db, some t.id)
    | none =>
      ({ db with
          tags := db.tags ++ [⟨db.nextTagId, nm, nxt⟩],
          nextTagId := db.nextTagId + 1 },
       some db.nextTagId)

/-- tagfile-c.py `DBManager.list_files`: the filter clauses are appended in
    the same order as in app.py (search, only-tagged, tag joins, root
    appended last to the WHERE list), yielding the same SQL. -/
def list_files (norm : String → String) (db : DB) (search_text : String)
    (tag_ids : List Nat) (only_tagged : Bool) (root_pre : Option String) :
    List FileRow :=
  App.sortByPath (db.files.filter (fun f =>
    (search_text = "" ||
      likeMatch none ('%' :: search_text.data ++ ['%']) f.path.data) &&
    (!only_tagged || db.fileTags.any (fun q => q.1 = f.id)) &&
    (tag_ids.all (fun tid => decide ((f.id, tid) ∈ db.fileTags))) &&
    (match root_pre with
     | none => true
     | some rp =>
       rp = "" || likeMatch none ((norm rp).data ++ ['%']) f.path.data)))

/-- tagfile-c.py `MainUI._remove_root`: same statements as app.py's
    `remove_root`. -/
def remove_root (norm : String → String) (db : DB) (path : String) : DB :=
  let p := norm path
  let isGone : FileRow → Bool := fun f => likeMatch none (p.data ++ ['%']) f.path.data
  let gone := db.files.filter isGone
  { db with
      roots := db.roots.filter (fun r => r ≠ p),
      files := db.files.filter (fun f => !isGone f),
      fileTags := db.fileTags.filter (fun q => !(gone.any (fun g => g.id = q.1))) }

/-- tagfile-c.py `MainUI.index_selected_root` from the point where
    `scan_running` has been set: fingerprints via `count_and_stats`, same
    short-circuit, same worker. -/
def index_selected_root (norm : String → String) (disk : Disk)
    (walk : List WalkEntry) (db : DB) (root : String) :
    List Event × DB × Nat × List String :=
  let r := norm root
  let fs := count_and_stats norm disk walk db (some r) true
  let ds := count_and_stats norm disk walk db (some r) false
  if fs.1 = ds.1 ∧ ds.2 ≥ fs.2 then
    ([Event.finished], db, 0, [])
  else
    let step := max 1 (fs.1 / 100)
    let db1 := App.add_root norm db r
    let out := walk.foldl
      (App.scan_step norm disk (fun n => n % step == 0 || n == fs.1) fs.1)
      ([], db1, 0, [])
    let db2 := (remove_missing_under norm disk out.2.1 r).1
    (Event.started fs.1 :: out.1 ++ [Event.finished], db2, out.2.2.1, out.2.2.2)

end TagfileC

theorem empty_mem_suffixes (t : List Char) : [] ∈ suffixes t := by
  induction t with
  | nil => simp [suffixes]
  | cons c cs ih => simp [suffixes, ih]

/-- Unfolding equation of `likeMatch` on a cons pattern. -/
theorem likeMatch_cons (esc : Option Char) (p : Char) (ps t : List Char) :
    likeMatch esc (p :: ps) t =
      if some p = esc then
        match ps, t with
        | q :: ps2, c :: ts => likeCharEq q c && likeMatch esc ps2 ts
        | _, _ => false
      else if p = '%' then (suffixes t).any (fun t2 => likeMatch esc ps t2)
      else if p = '_' then
        match t with
        | [] => false
        | _ :: ts => likeMatch esc ps ts
      else
        match t with
        | [] => false
        | c :: ts => likeCharEq p c && likeMatch esc ps ts := by
  rw [likeMatch.eq_def]

/-- A bare `%` pattern matches every text. -/
theorem likeMatch_pct {esc : Option Char} (h : esc ≠ some '%') (t : List Char) :
    likeMatch esc ['%'] t = true := by
  show likeMatch esc ('%' :: []) t = true
  rw [likeMatch_cons, if_neg (fun heq => h heq.symm), if_pos rfl, List.any_eq_true]
  exact ⟨[], empty_mem_suffixes t, by simp [likeMatch]⟩

/-- An unescaped `LIKE` prefix pattern built from a wildcard-free string
    matches exactly the ASCII-case-insensitive extensions of it. -/
theorem likeMatch_noMeta : ∀ (r t : List Char),
    (∀ c ∈ r, c ≠ '%' ∧ c ≠ '_') →
    likeMatch none (r ++ ['%']) t = ciPref r t
  | [], t, _ => by
    rw [List.nil_append, likeMatch_pct (by simp) t, ciPref]
  | c :: cs, t, h => by
    have hc := h c (by simp)
    rw [List.cons_append, likeMatch_cons, if_neg (by simp), if_neg hc.1, if_neg hc.2]
    match t with
    | [] => rfl
    | d :: ts =>
      show (likeCharEq c d && likeMatch none (cs ++ ['%']) ts) = ciPref (c :: cs) (d :: ts)
      rw [likeMatch_noMeta cs ts (fun x hx => h x (by simp [hx]))]
      rfl

/-- The escaped `LIKE` prefix pattern of `count_files_under` matches
    exactly the ASCII-case-insensitive extensions of the root, for every
    root. -/
theorem likeMatch_escaped : ∀ (r t : List Char),
    likeMatch (some '\\') (escapeLikeChars r ++ ['%']) t = ciPref r t
  | [], t => by
    rw [escapeLikeChars, List.nil_append, likeMatch_pct (by simp) t, ciPref]
  | c :: cs, t => by
    rw [escapeLikeChars]
    by_cases hm : c = '\\' ∨ c = '%' ∨ c = '_'
    · rw [if_pos hm]
      show likeMatch (some '\\') ('\\' :: c :: (escapeLikeChars cs ++ ['%'])) t = _
      rw [likeMatch_cons, if_pos rfl]
      match t with
      | [] => rfl
      | d :: ts =>
        show (likeCharEq c d && likeMatch (some '\\') (escapeLikeChars cs ++ ['%']) ts) =
          ciPref (c :: cs) (d :: ts)
        rw [likeMatch_escaped cs ts]
        rfl
    · push_neg at hm
      rw [if_neg (by simp [hm])]
      show likeMatch (some '\\') (c :: (escapeLikeChars cs ++ ['%'])) t = _
      rw [likeMatch_cons, if_neg (by simp [hm.1]), if_neg hm.2.1, if_neg hm.2.2]
      match t with
      | [] => rfl
      | d :: ts =>
        show (likeCharEq c d && likeMatch (some '\\') (escapeLikeChars cs ++ ['%']) ts) =
          ciPref (c :: cs) (d :: ts)
        rw [likeMatch_escaped cs ts]
        rfl

theorem mem_insertByPath {a f : FileRow} : ∀ {l : List FileRow},
    a ∈ App.insertByPath f l ↔ a = f ∨ a ∈ l := by
  intro l
  induction l with
  | nil => simp [App.insertByPath]
  | cons g gs ih =>
    rw [App.insertByPath]
    by_cases hle : f.path ≤ g.path
    · rw [if_pos hle]; simp
    · rw [if_neg hle]; simp [ih]; tauto

theorem mem_sortByPath {a : FileRow} : ∀ {l : List FileRow},
    a ∈ App.sortByPath l ↔ a ∈ l := by
  intro l
  induction l with
  | nil => simp [App.sortByPath]
  | cons f fs ih => rw [App.sortByPath, mem_insertByPath]; simp [ih]

/-- Catalog with roots `/data/a` and `/data/ab` both registered and one
    file under `/data/ab`. -/
def dbC1 : DB :=
  { files := [⟨1, "/data/ab/f.txt", 10, 100, none⟩],
    tags := [], fileTags := [],
    roots := ["/data/a", "/data/ab"],
    nextFileId := 2, nextTagId := 1 }

/-- Claim C1, counterexample: with roots `/data/a` and `/data/ab` both
    registered and the file `/data/ab/f.txt` catalogued, removing root
    `/data/a` does NOT leave the rows under `/data/ab` untouched: the
    unescaped `LIKE '/data/a%'` deletion matches them (their paths start
    with `/data/a` as a string), so the files table ends up empty. -/
theorem claim_C1_counterexample :
    (⟨1, "/data/ab/f.txt", 10, 100, none⟩ : FileRow) ∈ dbC1.files ∧
    List.isPrefixOf ("/data/ab").data ("/data/ab/f.txt").data = true ∧
    (App.remove_root id dbC1 ("/data/a")).files = [] := by
  exact ⟨by simp [dbC1], by decide, by decide⟩

/-- Claim C1 (amended): for a root whose normalized form contains no LIKE
    wildcard (`%` or `_`), `remove_root` deletes exactly the File rows
    whose path starts with the normalized root, ASCII letters compared
    case-insensitively (SQLite `LIKE`), and no row outside that set — so a
    row under `/data/ab`, whose path also starts with `/data/a`, IS
    deleted when `/data/a` is removed. -/
theorem claim_C1_amended (norm : String → String) (db : DB) (root : String)
    (h : ∀ c ∈ (norm root).data, c ≠ '%' ∧ c ≠ '_') :
    (App.remove_root norm db root).files =
      db.files.filter (fun f => !(ciPref (norm root).data f.path.data)) ∧
    ∀ f ∈ db.files, ciPref (norm root).data f.path.data = true →
      f ∉ (App.remove_root norm db root).files := by
  have hfe : (App.remove_root norm db root).files =
      db.files.filter (fun f => !(ciPref (norm root).data f.path.data)) := by
    show db.files.filter
      (fun f => !(likeMatch none ((norm root).data ++ ['%']) f.path.data)) = _
    apply List.filter_congr
    intro f _
    show (!(likeMatch none ((norm root).data ++ ['%']) f.path.data)) =
      !(ciPref (norm root).data f.path.data)
    rw [likeMatch_noMeta _ _ h]
  refine ⟨hfe, ?_⟩
  intro f hf hci hmem
  rw [hfe] at hmem
  have := (List.mem_filter.mp hmem).2
  rw [hci] at this
  simp at this

/-- Claim C1, witness for the amended theorem. -/
theorem claim_C1_amended_witness :
    (∀ c ∈ (id ("/data/a") : String).data, c ≠ '%' ∧ c ≠ '_') ∧
    (App.remove_root id dbC1 ("/data/a")).files =
      dbC1.files.filter (fun f => !(ciPref (id ("/data/a") : String).data f.path.data)) := by
  refine ⟨by decide, ?_⟩
  exact (claim_C1_amended id dbC1 ("/data/a") (by decide)).1

/-- Catalog holding a file whose path matches the pattern `/a%` by
    wildcard only (it does not literally start with `/a%`). -/
def dbC6 : DB :=
  { files := [⟨1, "/aXX/f.txt", 1, 5, none⟩],
    tags := [], fileTags := [], roots := ["/a%"],
    nextFileId := 2, nextTagId := 1 }

/-- Claim C6, counterexample: the count/max-mtime fingerprint query
    (`db_count_and_max_mtime_under`) does not escape `%`: under the root
    `/a%` it counts the row `/aXX/f.txt`, whose path does not literally
    start with `/a%`.  So not every prefix-restricted store query escapes
    the LIKE metacharacters. -/
theorem claim_C6_counterexample :
    App.db_count_and_max_mtime_under id dbC6 ("/a%") = (1, 5) ∧
    List.isPrefixOf ("/a%").data ("/aXX/f.txt").data = false := by
  exact ⟨by decide, by decide⟩

/-- `count_files_under` counts exactly the rows whose path literally
    starts with the normalized root, ASCII letters case-insensitive, for
    every root (its `LIKE` pattern is escaped). -/
theorem count_files_under_ciPref (norm : String → String) (db : DB) (root : String) :
    App.count_files_under norm db root =
      (db.files.filter (fun f => ciPref (norm root).data f.path.data)).length := by
  show (db.files.filter
    (fun f => likeMatch (some '\\') (escapeLikeChars (norm root).data ++ ['%']) f.path.data)).length = _
  congr 1
  apply List.filter_congr
  intro f _
  show likeMatch (some '\\') (escapeLikeChars (norm root).data ++ ['%']) f.path.data =
    ciPref (norm root).data f.path.data
  rw [likeMatch_escaped]

/-- Claim C6 (amended): of the prefix-restricted store queries only
    `count_files_under` escapes the LIKE metacharacters; it counts exactly
    the rows whose path literally starts with the normalized root (ASCII
    letters case-insensitive), for every root, even one containing `%`,
    `_` or `\`.  The other prefix queries (`remove_missing_under`,
    `db_count_and_max_mtime_under`, the root filter of `list_files`, and
    `remove_root`) use the unescaped prefix. -/
theorem claim_C6_amended (norm : String → String) (db : DB) (root : String) :
    App.count_files_under norm db root =
      (db.files.filter (fun f => ciPref (norm root).data f.path.data)).length :=
  count_files_under_ciPref norm db root

/-- Claim C2: when the disk fingerprint of the root (file count, maximum
    mtime) matches the catalog fingerprint — equal counts and catalog max
    mtime at least the disk max mtime — `index_selected_root` skips the
    walk entirely: it performs no upsert and no delete (the database is
    returned unchanged and no upsert is attempted) and emits exactly the
    completion signal. -/
theorem claim_C2 (norm : String → String) (disk : Disk) (walk : List WalkEntry)
    (db : DB) (root : String)
    (hcount : (App.walk_count_and_max_mtime disk walk).1 =
      (App.db_count_and_max_mtime_under norm db (norm root)).1)
    (hmtime : (App.db_count_and_max_mtime_under norm db (norm root)).2 ≥
      (App.walk_count_and_max_mtime disk walk).2) :
    App.index_selected_root norm disk walk db root =
      ([Event.finished], db, 0, []) := by
  show (if (App.walk_count_and_max_mtime disk walk).1 =
        (App.db_count_and_max_mtime_under norm db (norm root)).1 ∧
        (App.db_count_and_max_mtime_under norm db (norm root)).2 ≥
        (App.walk_count_and_max_mtime disk walk).2
      then _ else _) = _
  rw [if_pos ⟨hcount, hmtime⟩]

/-- The empty catalog. -/
def dbEmpty : DB :=
  { files := [], tags := [], fileTags := [], roots := [],
    nextFileId := 1, nextTagId := 1 }

/-- Claim C2, witness: an empty disk and an empty catalog short-circuit. -/
theorem claim_C2_witness :
    (App.walk_count_and_max_mtime ([] : Disk) []).1 =
      (App.db_count_and_max_mtime_under id dbEmpty (id ("/r"))).1 ∧
    (App.db_count_and_max_mtime_under id dbEmpty (id ("/r"))).2 ≥
      (App.walk_count_and_max_mtime ([] : Disk) []).2 ∧
    App.index_selected_root id ([] : Disk) [] dbEmpty ("/r") =
      ([Event.finished], dbEmpty, 0, []) := by
  exact ⟨by decide, by decide,
    claim_C2 id ([] : Disk) [] dbEmpty ("/r") (by decide) (by decide)⟩

/-- Claim C4: `list_files` filters conjunctively over the selected tag set.
    For every catalog and non-empty tag id list, a returned row carries
    every selected tag (first conjunct, over arbitrary search text,
    only-tagged flag and root filter); and with the other filters off,
    membership in the result is exactly membership in `files` together
    with carrying every selected tag (second conjunct) — so filtering
    F1 with tagA, F2 with tagA and tagB, F3 with tagB by both tags
    returns exactly F2. -/
theorem claim_C4 (norm : String → String) (db : DB) (tag_ids : List Nat)
    (hne : tag_ids ≠ []) :
    (∀ (search : String) (only_tagged : Bool) (root_pre : Option String)
      (f : FileRow),
      f ∈ App.list_files norm db search tag_ids only_tagged root_pre →
      ∀ tid ∈ tag_ids, (f.id, tid) ∈ db.fileTags) ∧
    (∀ f : FileRow,
      f ∈ App.list_files norm db ("") tag_ids false none ↔
        f ∈ db.files ∧ ∀ tid ∈ tag_ids, (f.id, tid) ∈ db.fileTags) := by
  constructor
  · intro search only_tagged root_pre f hf
    rw [App.list_files, mem_sortByPath, List.mem_filter] at hf
    have h2 := hf.2
    simp only [Bool.and_eq_true, List.all_eq_true, decide_eq_true_eq] at h2
    tauto
  · intro f
    rw [App.list_files, mem_sortByPath, List.mem_filter]
    simp only [Bool.and_eq_true, List.all_eq_true, decide_eq_true_eq,
      Bool.or_eq_true, Bool.not_false, Bool.true_eq]
    constructor
    · intro h
      exact ⟨h.1, by tauto⟩
    · intro h
      exact ⟨h.1, ⟨⟨Or.inl trivial, Or.inl trivial⟩, h.2⟩, trivial⟩

/-- Catalog of the claim's example: F1 carries tagA, F2 carries tagA and
    tagB, F3 carries tagB. -/
def dbC4 : DB :=
  { files := [⟨1, "/x/F1", 1, 1, none⟩, ⟨2, "/x/F2", 1, 1, none⟩,
      ⟨3, "/x/F3", 1, 1, none⟩],
    tags := [⟨1, "tagA", 1⟩, ⟨2, "tagB", 2⟩],
    fileTags := [(1, 1), (2, 1), (2, 2), (3, 2)],
    roots := [], nextFileId := 4, nextTagId := 3 }

/-- Claim C4, witness: on the example catalog, filtering by both tag ids
    returns exactly F2, and the theorem's characterization holds at F2. -/
theorem claim_C4_witness :
    ([1, 2] : List Nat) ≠ [] ∧
    App.list_files id dbC4 ("") [1, 2] false none =
      [⟨2, "/x/F2", 1, 1, none⟩] ∧
    ((⟨2, "/x/F2", 1, 1, none⟩ : FileRow) ∈
        App.list_files id dbC4 ("") [1, 2] false none ↔
      (⟨2, "/x/F2", 1, 1, none⟩ : FileRow) ∈ dbC4.files ∧
        ∀ tid ∈ ([1, 2] : List Nat),
          ((2 : Nat), tid) ∈ dbC4.fileTags) := by
  exact ⟨by decide, by decide,
    (claim_C4 id dbC4 [1, 2] (by decide)).2 ⟨2, "/x/F2", 1, 1, none⟩⟩

/-- If a predicate finds nothing in the first list, `find?` over an append
    searches the second list. -/
theorem find?_append_left_none {α : Type} (pred : α → Bool) {l₁ : List α}
    (h : l₁.find? pred = none) (l₂ : List α) :
    (l₁ ++ l₂).find? pred = l₂.find? pred := by
  rw [List.find?_append, h, Option.none_or]

/-- Claim C3: `upsert_file` is idempotent.  For a path that resolves to an
    existing regular file, and a catalog respecting the `UNIQUE(path)`
    constraint, a second upsert with unchanged disk state leaves the
    catalog exactly as after the first, and after the first call exactly
    one row for the normalized path exists, carrying the file's size and
    mtime. -/
theorem claim_C3 (norm : String → String) (disk : Disk) (db : DB) (p : String)
    (st : DiskFile) (hdisk : diskFind disk p = some st)
    (huniq : (db.files.filter (fun r => r.path = norm p)).length ≤ 1) :
    App.upsert_file norm disk (App.upsert_file norm disk db p) p =
      App.upsert_file norm disk db p ∧
    ((App.upsert_file norm disk db p).files.filter
        (fun r => r.path = norm p)).map (fun r => (r.size, r.mtime)) =
      [(st.size, st.mtime)] := by
  have hupd : ∀ d : DB, App.upsert_file norm disk d p =
      (match List.find? (fun r => r.path = norm p) d.files with
       | some _ =>
         { d with files :=
             d.files.map (fun r =>
               if r.path = norm p then { r with size := st.size, mtime := st.mtime }
               else r) }
       | none =>
         { d with
             files := d.files ++ [⟨d.nextFileId, norm p, st.size, st.mtime, none⟩],
             nextFileId := d.nextFileId + 1 }) := by
    intro d
    rw [App.upsert_file, hdisk]
  cases hfind : List.find? (fun r => r.path = norm p) db.files with
  | none =>
    have hnone := List.find?_eq_none.mp hfind
    rw [hupd db, hfind]
    set new : FileRow := ⟨db.nextFileId, norm p, st.size, st.mtime, none⟩ with hnew
    have hprednew : (fun r : FileRow => decide (r.path = norm p)) new = true := by
      simp [hnew]
    have hfind2 : List.find? (fun r => r.path = norm p) (db.files ++ [new]) =
        some new := by
      rw [find?_append_left_none _ hfind]
      simp [List.find?_cons, hnew]
    constructor
    · rw [hupd _]
      simp only []
      rw [hfind2]
      have hmap : (db.files ++ [new]).map (fun r =>
          if r.path = norm p then { r with size := st.size, mtime := st.mtime }
          else r) = db.files ++ [new] := by
        rw [List.map_append]
        congr 1
        · have : ∀ r ∈ db.files, (if r.path = norm p then
              { r with size := st.size, mtime := st.mtime } else r) = id r := by
            intro r hr
            rw [if_neg]
            · rfl
            · intro hEq
              exact hnone r hr (by simp [hEq])
          rw [List.map_congr_left this, List.map_id]
        · simp [hnew]
      rw [hmap]
    · rw [List.filter_append, List.filter_eq_nil.mpr
        (fun a ha => by simpa using fun hEq => hnone a ha (by simp [hEq]))]
      simp [hnew]
  | some r0 =>
    have hr0mem := List.mem_of_find?_eq_some hfind
    have hr0path : r0.path = norm p := by
      have := List.find?_some hfind
      simpa using this
    rw [hupd db, hfind]
    set u : FileRow → FileRow := fun r =>
      if r.path = norm p then { r with size := st.size, mtime := st.mtime } else r
      with hu
    have hupath : ∀ r : FileRow, (u r).path = r.path := by
      intro r
      by_cases hc : r.path = norm p <;> simp [hu, hc]
    have huu : ∀ r : FileRow, u (u r) = u r := by
      intro r
      by_cases hc : r.path = norm p
      · simp [hu, hc]
      · simp [hu, hc]
    have hfind2 : (List.find? (fun r => r.path = norm p) (db.files.map u)).isSome := by
      rw [List.find?_isSome]
      exact ⟨u r0, List.mem_map_of_mem u hr0mem, by simp [hupath r0, hr0path]⟩
    constructor
    · rw [hupd _]
      simp only []
      cases hf2 : List.find? (fun r => r.path = norm p)
          (({ db with files := db.files.map u } : DB).files) with
      | none =>
        rw [hf2] at hfind2
        simp at hfind2
      | some r1 =>
        show ({ db with files := (db.files.map u).map u } : DB) = _
        rw [List.map_map]
        congr 1
        exact List.map_congr_left (fun a _ => huu a)
    · show ((db.files.map u).filter (fun r => r.path = norm p)).map
        (fun r => (r.size, r.mtime)) = _
      rw [List.filter_map]
      have hfc : db.files.filter ((fun r : FileRow => decide (r.path = norm p)) ∘ u) =
          db.files.filter (fun r => r.path = norm p) := by
        apply List.filter_congr
        intro a _
        simp [Function.comp, hupath a]
      rw [hfc]
      have hlen : (db.files.filter (fun r => r.path = norm p)).length = 1 := by
        have hge : 0 < (db.files.filter (fun r => r.path = norm p)).length := by
          rw [List.length_pos]
          intro hempty
          have : r0 ∈ db.files.filter (fun r => r.path = norm p) :=
            List.mem_filter.mpr ⟨hr0mem, by simp [hr0path]⟩
          rw [hempty] at this
          exact List.not_mem_nil r0 this
        omega
      obtain ⟨a, ha⟩ := List.length_eq_one.mp hlen
      have hapath : a.path = norm p := by
        have : a ∈ db.files.filter (fun r => r.path = norm p) := by
          rw [ha]; exact List.mem_singleton_self a
        simpa using (List.mem_filter.mp this).2
      rw [ha]
      simp [hu, hapath]

theorem foldl_max_le_init (l : List TagRow) :
    ∀ a : Int, a ≤ l.foldl (fun m x => max m x.ord) a := by
  induction l with
  | nil => intro a; simp
  | cons x xs ih =>
    intro a
    rw [List.foldl_cons]
    exact le_trans (le_max_left a x.ord) (ih _)

theorem foldl_max_mem (l : List TagRow) :
    ∀ (a : Int) (x : TagRow), x ∈ l →
      x.ord ≤ l.foldl (fun m x => max m x.ord) a := by
  induction l with
  | nil =>
    intro a x hx
    exact absurd hx (List.not_mem_nil x)
  | cons y ys ih =>
    intro a x hx
    rw [List.foldl_cons]
    rcases List.mem_cons.mp hx with h | h
    · subst h
      exact le_trans (le_max_right a x.ord) (foldl_max_le_init ys _)
    · exact ih _ x h

/-- `COALESCE(MAX(ord),0)` is an upper bound of the existing `ord` values. -/
theorem maxOrd_ge (tags : List TagRow) : ∀ t ∈ tags, t.ord ≤ App.maxOrd tags := by
  intro t ht
  cases tags with
  | nil => exact absurd ht (List.not_mem_nil t)
  | cons x xs =>
    show t.ord ≤ xs.foldl (fun m x => max m x.ord) x.ord
    rcases List.mem_cons.mp ht with h | h
    · subst h
      exact foldl_max_le_init xs _
    · exact foldl_max_mem xs _ _ h

/-- Claim C9: `ensure_tag` first strips surrounding whitespace.  An empty
    result is a no-op returning no identity.  For a non-empty result: if a
    tag with that name exists (names are unique) its id is returned and no
    row changes; otherwise the tag is created with order value
    `max(existing order)+1` — strictly above every existing order value —
    and the new id is returned. -/
theorem claim_C9 (db : DB) (name : String)
    (hnames : db.tags.Pairwise (fun a b => a.name ≠ b.name)) :
    (stripStr name = "" → App.ensure_tag db name = (db, none)) ∧
    (stripStr name ≠ "" → ∀ t ∈ db.tags, t.name = stripStr name →
      App.ensure_tag db name = (db, some t.id)) ∧
    ((∀ t ∈ db.tags, t.name ≠ stripStr name) → stripStr name ≠ "" →
      App.ensure_tag db name =
        ({ db with
            tags := db.tags ++ [⟨db.nextTagId, stripStr name, App.maxOrd db.tags + 1⟩],
            nextTagId := db.nextTagId + 1 },
         some db.nextTagId) ∧
      ∀ t ∈ db.tags, t.ord < App.maxOrd db.tags + 1) := by
  refine ⟨?_, ?_, ?_⟩
  · intro hempty
    rw [App.ensure_tag]
    simp only [hempty]
    rw [if_pos trivial]
  · intro hne t ht htname
    rw [App.ensure_tag]
    simp only []
    rw [if_neg hne]
    cases hf : List.find? (fun x => x.name = stripStr name) db.tags with
    | none =>
      exact absurd (by simp [htname]) (List.find?_eq_none.mp hf t ht)
    | some t2 =>
      have ht2mem := List.mem_of_find?_eq_some hf
      have ht2name : t2.name = stripStr name := by
        have := List.find?_some hf
        simpa using this
      have : t2 = t := by
        by_contra hneq
        exact (hnames.forall (fun a b h => (h ·.symm)) ht2mem ht hneq)
          (ht2name.trans htname.symm)
      rw [this]
  · intro hall hne
    rw [App.ensure_tag]
    simp only []
    rw [if_neg hne, List.find?_eq_none.mpr
      (fun t ht => by simpa using hall t ht)]
    refine ⟨rfl, ?_⟩
    intro t ht
    rw [Int.lt_add_one_iff]
    exact maxOrd_ge db.tags t ht

/-- Catalog with a single tag named `done` of order 1. -/
def dbC9 : DB :=
  { files := [], tags := [⟨1, "done", 1⟩], fileTags := [], roots := [],
    nextFileId := 1, nextTagId := 2 }

/-- Claim C9, witness: whitespace-only input is a no-op, an existing name
    returns its id unchanged, a fresh name is created with order
    `max(existing)+1 = 2`. -/
theorem claim_C9_witness :
    App.ensure_tag dbC9 ("  ") = (dbC9, none) ∧
    App.ensure_tag dbC9 (" done ") = (dbC9, some 1) ∧
    App.ensure_tag dbC9 ("todo") =
      ({ dbC9 with tags := dbC9.tags ++ [⟨2, "todo", 2⟩], nextTagId := 3 },
       some 2) := by
  have hpw : dbC9.tags.Pairwise (fun a b => a.name ≠ b.name) := by
    simp [dbC9]
  refine ⟨(claim_C9 dbC9 ("  ") hpw).1 (by decide), ?_, ?_⟩
  · exact (claim_C9 dbC9 (" done ") hpw).2.1 (by decide) ⟨1, "done", 1⟩
      (by simp [dbC9]) (by decide)
  · exact ((claim_C9 dbC9 ("todo") hpw).2.2
      (by intro t ht; simp [dbC9] at ht; simp [ht]; decide) (by decide)).1

/-- Claim C3, witness: upserting `/r/f` twice over a one-file disk into an
    empty catalog equals upserting it once. -/
theorem claim_C3_witness :
    diskFind ([⟨"/r/f", 3, 7⟩] : Disk) ("/r/f") = some ⟨"/r/f", 3, 7⟩ ∧
    (dbEmpty.files.filter (fun r => r.path = id ("/r/f"))).length ≤ 1 ∧
    App.upsert_file id ([⟨"/r/f", 3, 7⟩] : Disk)
        (App.upsert_file id ([⟨"/r/f", 3, 7⟩] : Disk) dbEmpty ("/r/f")) ("/r/f") =
      App.upsert_file id ([⟨"/r/f", 3, 7⟩] : Disk) dbEmpty ("/r/f") := by
  exact ⟨by decide, by decide,
    (claim_C3 id ([⟨"/r/f", 3, 7⟩] : Disk) dbEmpty ("/r/f") ⟨"/r/f", 3, 7⟩
      (by decide) (by decide)).1⟩

theorem mem_insertIgnoreFT {a q : Nat × Nat} {l : List (Nat × Nat)} :
    a ∈ App.insertIgnoreFT l q ↔ a ∈ l ∨ a = q := by
  rw [App.insertIgnoreFT]
  by_cases h : q ∈ l
  · rw [if_pos h]
    constructor
    · exact Or.inl
    · rintro (ha | ha)
      · exact ha
      · exact ha ▸ h
  · rw [if_neg h]
    simp

theorem nodup_insertIgnoreFT {q : Nat × Nat} {l : List (Nat × Nat)}
    (h : l.Nodup) : (App.insertIgnoreFT l q).Nodup := by
  rw [App.insertIgnoreFT]
  by_cases hq : q ∈ l
  · rw [if_pos hq]; exact h
  · rw [if_neg hq]
    refine List.Nodup.append h (List.nodup_singleton q) ?_
    intro a hal haq
    rw [List.mem_singleton] at haq
    exact hq (haq ▸ hal)

theorem mem_foldl_insertIgnoreFT {a : Nat × Nat} :
    ∀ {adds l : List (Nat × Nat)},
      a ∈ adds.foldl App.insertIgnoreFT l ↔ a ∈ l ∨ a ∈ adds := by
  intro adds
  induction adds with
  | nil => simp
  | cons q qs ih =>
    intro l
    rw [List.foldl_cons, ih, mem_insertIgnoreFT]
    simp
    tauto

theorem nodup_foldl_insertIgnoreFT :
    ∀ {adds l : List (Nat × Nat)}, l.Nodup →
      (adds.foldl App.insertIgnoreFT l).Nodup := by
  intro adds
  induction adds with
  | nil => exact fun h => h
  | cons q qs ih =>
    intro l h
    rw [List.foldl_cons]
    exact ih (nodup_insertIgnoreFT h)

/-- If at most one element can satisfy the predicate (pairwise), filtering
    a list containing a satisfying element yields exactly that element. -/
theorem filter_pairwise_singleton {α : Type} (p : α → Bool) :
    ∀ (l : List α), l.Pairwise (fun x y => ¬(p x = true ∧ p y = true)) →
      ∀ a ∈ l, p a = true → l.filter p = [a]
  | [], _, a, ha, _ => absurd ha (List.not_mem_nil a)
  | x :: xs, hpw, a, ha, hpa => by
    have hpw1 := (List.pairwise_cons.mp hpw).1
    have hpw2 := (List.pairwise_cons.mp hpw).2
    by_cases hpx : p x = true
    · have hax : a = x := by
        rcases List.mem_cons.mp ha with h | h
        · exact h
        · exact absurd ⟨hpx, hpa⟩ (hpw1 a h)
      rw [List.filter_cons_of_pos hpx,
        List.filter_eq_nil.mpr (fun y hy hpy => hpw1 y hy ⟨hpx, hpy⟩), hax]
    · have hax : a ∈ xs := by
        rcases List.mem_cons.mp ha with h | h
        · exact absurd (h ▸ hpa) hpx
        · exact h
      rw [List.filter_cons_of_neg hpx]
      exact filter_pairwise_singleton p xs hpw2 a hax hpa

/-- Claim C5: `_rename_or_merge_tag` merges on collision.  With unique tag
    names, an old tag and a different existing tag carrying the target
    name: afterwards the target tag is the single tag with that name, the
    old tag row is gone, the target tag's associations are exactly the
    union of both tags' associations with duplicates dropped (the table
    stays duplicate-free), no association with the old tag remains, and
    associations of every other tag are untouched. -/
theorem claim_C5 (db : DB) (told tnew : TagRow) (new_name : String)
    (hnames : db.tags.Pairwise (fun a b => a.name ≠ b.name))
    (hold : told ∈ db.tags) (hnew : tnew ∈ db.tags)
    (hname : tnew.name = new_name) (hnn : new_name ≠ "")
    (hne : told.id ≠ tnew.id)
    (hnodup : db.fileTags.Nodup) :
    (App.rename_or_merge_tag db told.id new_name).tags.filter
        (fun x => x.name = new_name) = [tnew] ∧
    (∀ x ∈ (App.rename_or_merge_tag db told.id new_name).tags, x.id ≠ told.id) ∧
    (∀ fid : Nat,
      (fid, tnew.id) ∈ (App.rename_or_merge_tag db told.id new_name).fileTags ↔
        (fid, told.id) ∈ db.fileTags ∨ (fid, tnew.id) ∈ db.fileTags) ∧
    (∀ fid : Nat,
      (fid, told.id) ∉ (App.rename_or_merge_tag db told.id new_name).fileTags) ∧
    (App.rename_or_merge_tag db told.id new_name).fileTags.Nodup ∧
    (∀ (fid tid : Nat), tid ≠ told.id → tid ≠ tnew.id →
      ((fid, tid) ∈ (App.rename_or_merge_tag db told.id new_name).fileTags ↔
        (fid, tid) ∈ db.fileTags)) := by
  have hto_ne_tn : told ≠ tnew := fun h => hne (h ▸ rfl)
  have hton : told.name ≠ new_name := by
    intro h
    exact (hnames.forall (fun a b hab => (hab ·.symm)) hold hnew hto_ne_tn)
      (h.trans hname.symm)
  have hfind : List.find? (fun t => t.name = new_name) db.tags = some tnew := by
    cases hf : List.find? (fun t => t.name = new_name) db.tags with
    | none =>
      exact absurd (by simp [hname]) (List.find?_eq_none.mp hf tnew hnew)
    | some t2 =>
      have ht2mem := List.mem_of_find?_eq_some hf
      have ht2name : t2.name = new_name := by
        have := List.find?_some hf
        simpa using this
      have : t2 = tnew := by
        by_contra hneq
        exact (hnames.forall (fun a b hab => (hab ·.symm)) ht2mem hnew hneq)
          (ht2name.trans hname.symm)
      rw [this]
  have hres : App.rename_or_merge_tag db told.id new_name =
      { db with
          fileTags := (((db.fileTags.filter (fun q => q.2 = told.id)).map
              (fun q => (q.1, tnew.id))).foldl App.insertIgnoreFT
                db.fileTags).filter (fun q => q.2 ≠ told.id),
          tags := db.tags.filter (fun x => x.id ≠ told.id) } := by
    rw [App.rename_or_merge_tag, if_neg hnn, hfind]
    dsimp only
    rw [if_neg (Ne.symm hne)]
  rw [hres]
  have hmem_merged : ∀ a : Nat × Nat,
      a ∈ ((db.fileTags.filter (fun q => q.2 = told.id)).map
          (fun q => (q.1, tnew.id))).foldl App.insertIgnoreFT db.fileTags ↔
        a ∈ db.fileTags ∨ (a.2 = tnew.id ∧ (a.1, told.id) ∈ db.fileTags) := by
    intro a
    rw [mem_foldl_insertIgnoreFT]
    constructor
    · rintro (h | h)
      · exact Or.inl h
      · right
        rw [List.mem_map] at h
        obtain ⟨q, hq, hqa⟩ := h
        have hq2 := List.mem_filter.mp hq
        refine ⟨by rw [← hqa], ?_⟩
        have : q.2 = told.id := by simpa using hq2.2
        have hq1 : q.1 = a.1 := by rw [← hqa]
        rw [← hq1, ← this]
        exact hq2.1
    · rintro (h | ⟨h2, h1⟩)
      · exact Or.inl h
      · right
        rw [List.mem_map]
        refine ⟨(a.1, told.id), List.mem_filter.mpr ⟨h1, by simp⟩, ?_⟩
        rw [← h2]
  refine ⟨?_, ?_, ?_, ?_, ?_, ?_⟩
  · show (db.tags.filter (fun x => x.id ≠ told.id)).filter
      (fun x => x.name = new_name) = [tnew]
    apply filter_pairwise_singleton
    · exact (hnames.filter _).imp (fun {a b} hab h => by
        have h1 : a.name = new_name := by simpa using h.1
        have h2 : b.name = new_name := by simpa using h.2
        exact hab (h1.trans h2.symm))
    · exact List.mem_filter.mpr ⟨hnew, by simp [Ne.symm hne]⟩
    · simp [hname]
  · intro x hx
    have := (List.mem_filter.mp hx).2
    simpa using this
  · intro fid
    rw [List.mem_filter, hmem_merged]
    simp only [decide_eq_true_eq]
    constructor
    · rintro ⟨h | ⟨h2, h1⟩, _⟩
      · exact Or.inr h
      · exact Or.inl h1
    · intro h
      refine ⟨?_, Ne.symm hne⟩
      rcases h with h | h
      · exact Or.inr ⟨trivial, h⟩
      · exact Or.inl h
  · intro fid hmem
    have := (List.mem_filter.mp hmem).2
    simp at this
  · exact List.Nodup.filter _ (nodup_foldl_insertIgnoreFT hnodup)
  · intro fid tid htold htnew
    rw [List.mem_filter, hmem_merged]
    simp only [decide_eq_true_eq]
    constructor
    · rintro ⟨h | ⟨h2, h1⟩, _⟩
      · exact h
      · exact absurd h2 htnew
    · exact fun h => ⟨Or.inl h, htold⟩

/-- Catalog of the claim's example: tag `todo` on files F1 and F2, tag
    `later` on files F2 and F3. -/
def dbC5 : DB :=
  { files := [⟨1, "/x/F1", 1, 1, none⟩, ⟨2, "/x/F2", 1, 1, none⟩,
      ⟨3, "/x/F3", 1, 1, none⟩],
    tags := [⟨1, "todo", 1⟩, ⟨2, "later", 2⟩],
    fileTags := [(1, 1), (2, 1), (2, 2), (3, 2)],
    roots := [], nextFileId := 4, nextTagId := 3 }

/-- Claim C5, witness: renaming `todo` to `later` leaves a single `later`
    tag, associated with exactly files 1, 2 and 3. -/
theorem claim_C5_witness :
    (App.rename_or_merge_tag dbC5 1 ("later")).tags.filter
        (fun x => x.name = "later") = [⟨2, "later", 2⟩] ∧
    (((1 : Nat), (2 : Nat)) ∈ (App.rename_or_merge_tag dbC5 1 ("later")).fileTags ↔
      ((1 : Nat), (1 : Nat)) ∈ dbC5.fileTags ∨
        ((1 : Nat), (2 : Nat)) ∈ dbC5.fileTags) ∧
    (App.rename_or_merge_tag dbC5 1 ("later")).fileTags =
      [(2, 2), (3, 2), (1, 2)] := by
  have h := claim_C5 dbC5 ⟨1, "todo", 1⟩ ⟨2, "later", 2⟩ ("later")
    (by decide) (by decide) (by decide) (by decide) (by decide)
    (by decide) (by decide)
  exact ⟨h.1, h.2.2.1 1, by decide⟩

/-- For a nonempty root, `count_and_stats` with `is_disk` is the same disk
    fingerprint as app.py's `walk_count_and_max_mtime`. -/
theorem count_and_stats_disk_eq (norm : String → String) (disk : Disk)
    (walk : List WalkEntry) (db : DB) (r : String) (h : r ≠ "") :
    TagfileC.count_and_stats norm disk walk db (some r) true =
      App.walk_count_and_max_mtime disk walk := by
  rw [TagfileC.count_and_stats]
  simp only [if_true]
  rw [if_neg h]
  rfl

/-- For a nonempty root, `count_and_stats` on the database is the same
    catalog fingerprint as app.py's `db_count_and_max_mtime_under`. -/
theorem count_and_stats_db_eq (norm : String → String) (disk : Disk)
    (walk : List WalkEntry) (db : DB) (r : String) (h : r ≠ "") :
    TagfileC.count_and_stats norm disk walk db (some r) false =
      App.db_count_and_max_mtime_under norm db r := by
  rw [TagfileC.count_and_stats]
  simp only [Bool.false_eq_true, if_false]
  rw [if_neg h]
  rfl

/-- Claim C7, counterexample: the two files disagree on counting files
    under a root.  Under the root `/a%`, app.py's `count_files_under`
    (escaped) counts 0 rows, while tagfile-c.py's `count_and_stats`
    (unescaped) counts 1 — so the store operations are not behaviorally
    equivalent as claimed. -/
theorem claim_C7_counterexample :
    App.count_files_under id dbC6 ("/a%") = 0 ∧
    (TagfileC.count_and_stats id ([] : Disk) [] dbC6 (some ("/a%")) false).1 = 1 := by
  exact ⟨by decide, by decide⟩

/-- Claim C7 (amended): the two rewrites agree on `upsert_file`,
    `remove_missing_under`, `ensure_tag`, `list_files`, the catalog
    fingerprint, and the whole `index_selected_root` reconciliation
    including its short-circuit (for nonempty normalized roots); counting
    files under a root differs — app.py escapes the LIKE wildcards and
    tagfile-c.py does not — and the counts agree only for roots whose
    normalized form is free of `%` and `_`. -/
theorem claim_C7_amended :
    (∀ (norm : String → String) (disk : Disk) (db : DB) (p : String),
      App.upsert_file norm disk db p = TagfileC.upsert_file norm disk db p) ∧
    (∀ (norm : String → String) (disk : Disk) (db : DB) (root : String),
      App.remove_missing_under norm disk db root =
        TagfileC.remove_missing_under norm disk db root) ∧
    (∀ (db : DB) (name : String),
      App.ensure_tag db name = TagfileC.ensure_tag db name) ∧
    (∀ (norm : String → String) (db : DB) (s : String) (tids : List Nat)
        (ot : Bool) (rp : Option String),
      App.list_files norm db s tids ot rp =
        TagfileC.list_files norm db s tids ot rp) ∧
    (∀ (norm : String → String) (disk : Disk) (walk : List WalkEntry) (db : DB)
        (root : String), root ≠ "" →
      TagfileC.count_and_stats norm disk walk db (some root) false =
        App.db_count_and_max_mtime_under norm db root) ∧
    (∀ (norm : String → String) (disk : Disk) (walk : List WalkEntry) (db : DB)
        (root : String), norm root ≠ "" →
      App.index_selected_root norm disk walk db root =
        TagfileC.index_selected_root norm disk walk db root) ∧
    (∀ (norm : String → String) (db : DB) (root : String), root ≠ "" →
      (∀ c ∈ (norm root).data, c ≠ '%' ∧ c ≠ '_') →
      App.count_files_under norm db root =
        (TagfileC.count_and_stats norm ([] : Disk) [] db (some root) false).1) := by
  refine ⟨?_, ?_, ?_, ?_, ?_, ?_, ?_⟩
  · intro norm disk db p
    rfl
  · intro norm disk db root
    rfl
  · intro db name
    rfl
  · intro norm db s tids ot rp
    rfl
  · intro norm disk walk db root hroot
    exact count_and_stats_db_eq norm disk walk db root hroot
  · intro norm disk walk db root hroot
    rw [TagfileC.index_selected_root]
    rw [count_and_stats_disk_eq norm disk walk db (norm root) hroot,
      count_and_stats_db_eq norm disk walk db (norm root) hroot]
    rfl
  · intro norm db root hroot hmeta
    rw [count_and_stats_db_eq norm ([] : Disk) [] db root hroot,
      count_files_under_ciPref]
    show _ = (db.files.filter
      (fun f => likeMatch none ((norm root).data ++ ['%']) f.path.data)).length
    congr 1
    apply List.filter_congr
    intro f _
    show ciPref (norm root).data f.path.data =
      likeMatch none ((norm root).data ++ ['%']) f.path.data
    rw [likeMatch_noMeta _ _ hmeta]

/-- Claim C7, witness for the amended equivalence at concrete inputs. -/
theorem claim_C7_witness :
    (("/r" : String) ≠ "" ∧
      TagfileC.count_and_stats id ([] : Disk) [] dbEmpty (some ("/r")) false =
        App.db_count_and_max_mtime_under id dbEmpty ("/r")) ∧
    ((id ("/r") : String) ≠ "" ∧
      App.index_selected_root id ([] : Disk) [] dbEmpty ("/r") =
        TagfileC.index_selected_root id ([] : Disk) [] dbEmpty ("/r")) ∧
    (("/data/a" : String) ≠ "" ∧
      App.count_files_under id dbC1 ("/data/a") =
        (TagfileC.count_and_stats id ([] : Disk) [] dbC1
          (some ("/data/a")) false).1) := by
  refine ⟨⟨by decide, ?_⟩, ⟨by decide, ?_⟩, ⟨by decide, ?_⟩⟩
  · exact claim_C7_amended.2.2.2.2.1 id ([] : Disk) [] dbEmpty ("/r") (by decide)
  · exact claim_C7_amended.2.2.2.2.2.1 id ([] : Disk) [] dbEmpty ("/r") (by decide)
  · exact claim_C7_amended.2.2.2.2.2.2 id dbC1 ("/data/a") (by decide) (by decide)

/-- The processed counters carried by the progress ticks of an event
    trace. -/
def ticksOf (evs : List Event) : List Nat :=
  evs.filterMap (fun e => match e with
    | Event.tick q _ => some q
    | _ => none)

theorem ticksOf_append (a b : List Event) :
    ticksOf (a ++ b) = ticksOf a ++ ticksOf b :=
  List.filterMap_append a b _

/-- Behaviour of a scan worker's inner loop: the processed counter advances
    once per walked file, every file's upsert is attempted (failures
    included), the tick counters stay bounded by the processed counter and
    strictly increasing, and the loop appends only tick events. -/
theorem scan_fold_spec (norm : String → String) (disk : Disk) (emit : Nat → Bool)
    (total : Nat) :
    ∀ (walk : List WalkEntry) (evs : List Event) (db : DB) (processed : Nat)
      (att : List String),
    (∀ q ∈ ticksOf evs, q ≤ processed) →
    List.Chain' (· < ·) (ticksOf evs) →
    ((walk.foldl (App.scan_step norm disk emit total) (evs, db, processed, att)).2.2.1 =
        processed + walk.length ∧
      (walk.foldl (App.scan_step norm disk emit total) (evs, db, processed, att)).2.2.2 =
        att ++ walk.map (fun we => we.path) ∧
      (∀ q ∈ ticksOf
          (walk.foldl (App.scan_step norm disk emit total) (evs, db, processed, att)).1,
        q ≤ processed + walk.length) ∧
      List.Chain' (· < ·) (ticksOf
        (walk.foldl (App.scan_step norm disk emit total) (evs, db, processed, att)).1) ∧
      ∃ ts : List Event,
        (walk.foldl (App.scan_step norm disk emit total) (evs, db, processed, att)).1 =
          evs ++ ts ∧ ∀ e ∈ ts, ∃ a b, e = Event.tick a b) := by
  intro walk
  induction walk with
  | nil =>
    intro evs db processed att h1 h2
    rw [List.foldl_nil]
    exact ⟨by simp, by simp, by simpa using h1, h2, [], by simp, by simp⟩
  | cons we ws ih =>
    intro evs db processed att h1 h2
    rw [List.foldl_cons]
    have hstep : App.scan_step norm disk emit total (evs, db, processed, att) we =
        ((if emit (processed + 1) = true
            then evs ++ [Event.tick (processed + 1) total] else evs),
         (if we.upsertFails = true then db else App.upsert_file norm disk db we.path),
         processed + 1, att ++ [we.path]) := rfl
    rw [hstep]
    have hticks2 : ticksOf (if emit (processed + 1) = true
        then evs ++ [Event.tick (processed + 1) total] else evs) =
        ticksOf evs ++
          (if emit (processed + 1) = true then [processed + 1] else []) := by
      by_cases h : emit (processed + 1) = true
      · rw [if_pos h, if_pos h, ticksOf_append]
        rfl
      · rw [if_neg h, if_neg h, List.append_nil]
    have h1' : ∀ q ∈ ticksOf (if emit (processed + 1) = true
        then evs ++ [Event.tick (processed + 1) total] else evs),
        q ≤ processed + 1 := by
      rw [hticks2]
      intro q hq
      rcases List.mem_append.mp hq with h | h
      · exact le_trans (h1 q h) (Nat.le_succ _)
      · by_cases hc : emit (processed + 1) = true
        · rw [if_pos hc, List.mem_singleton] at h
          omega
        · rw [if_neg hc] at h
          exact absurd h (List.not_mem_nil q)
    have h2' : List.Chain' (· < ·) (ticksOf (if emit (processed + 1) = true
        then evs ++ [Event.tick (processed + 1) total] else evs)) := by
      rw [hticks2]
      by_cases hc : emit (processed + 1) = true
      · rw [if_pos hc]
        refine List.Chain'.append h2 (List.chain'_singleton _) ?_
        intro x hx y hy
        have hxm : x ∈ ticksOf evs := List.mem_of_mem_getLast? hx
        have hym : y = processed + 1 := by
          rw [List.head?_cons, Option.mem_def] at hy
          exact (Option.some.injEq _ _ ▸ hy.symm :)
        have := h1 x hxm
        omega
      · rw [if_neg hc, List.append_nil]
        exact h2
    obtain ⟨ha, hb, hc2, hd, ts', hts', hall'⟩ :=
      ih (if emit (processed + 1) = true
          then evs ++ [Event.tick (processed + 1) total] else evs)
        (if we.upsertFails = true then db else App.upsert_file norm disk db we.path)
        (processed + 1) (att ++ [we.path]) h1' h2'
    refine ⟨by rw [ha]; simp; omega, by rw [hb]; simp, ?_, hd, ?_⟩
    · intro q hq
      have := hc2 q hq
      simp only [List.length_cons]
      omega
    · refine ⟨(if emit (processed + 1) = true
          then [Event.tick (processed + 1) total] else []) ++ ts', ?_, ?_⟩
      · rw [hts']
        by_cases hc : emit (processed + 1) = true
        · rw [if_pos hc, if_pos hc, List.append_assoc]
        · rw [if_neg hc, if_neg hc, List.nil_append]
      · intro e he
        rcases List.mem_append.mp he with h | h
        · by_cases hc : emit (processed + 1) = true
          · rw [if_pos hc, List.mem_singleton] at h
            exact ⟨processed + 1, total, h⟩
          · rw [if_neg hc] at h
            exact absurd h (List.not_mem_nil e)
        · exact hall' e h

/-- Behaviour of the rescan-all outer loop over the deduplicated roots:
    one shared processed counter advancing once per file of every walk,
    all upserts attempted, ticks bounded and strictly increasing, and only
    tick events appended. -/
theorem rescan_fold_spec (norm : String → String) (disk : Disk)
    (walks : String → List WalkEntry) (total : Nat) :
    ∀ (roots : List String) (evs : List Event) (db : DB) (processed : Nat)
      (att : List String),
    (∀ q ∈ ticksOf evs, q ≤ processed) →
    List.Chain' (· < ·) (ticksOf evs) →
    ((roots.foldl (App.rescan_root_step norm disk walks total)
        (evs, db, processed, att)).2.2.1 =
        processed + (roots.map (fun r => (walks r).length)).sum ∧
      (roots.foldl (App.rescan_root_step norm disk walks total)
        (evs, db, processed, att)).2.2.2 =
        att ++ (roots.map (fun r => (walks r).map (fun we => we.path))).join ∧
      (∀ q ∈ ticksOf (roots.foldl (App.rescan_root_step norm disk walks total)
          (evs, db, processed, att)).1,
        q ≤ processed + (roots.map (fun r => (walks r).length)).sum) ∧
      List.Chain' (· < ·) (ticksOf (roots.foldl
        (App.rescan_root_step norm disk walks total) (evs, db, processed, att)).1) ∧
      ∃ ts : List Event,
        (roots.foldl (App.rescan_root_step norm disk walks total)
          (evs, db, processed, att)).1 = evs ++ ts ∧
        ∀ e ∈ ts, ∃ a b, e = Event.tick a b) := by
  intro roots
  induction roots with
  | nil =>
    intro evs db processed att h1 h2
    rw [List.foldl_nil]
    exact ⟨by simp, by simp, by simpa using h1, h2, [], by simp, by simp⟩
  | cons r rs ih =>
    intro evs db processed att h1 h2
    rw [List.foldl_cons]
    obtain ⟨ha, hb, hc, hd, ts1, hts1, hall1⟩ :=
      scan_fold_spec norm disk (fun n => n % 500 == 0 || n == total) total
        (walks r) evs (App.add_root norm db r) processed att h1 h2
    have hstep : App.rescan_root_step norm disk walks total (evs, db, processed, att) r =
        (((walks r).foldl (App.scan_step norm disk
            (fun n => n % 500 == 0 || n == total) total)
            (evs, App.add_root norm db r, processed, att)).1,
         (App.remove_missing_under norm disk
           ((walks r).foldl (App.scan_step norm disk
             (fun n => n % 500 == 0 || n == total) total)
             (evs, App.add_root norm db r, processed, att)).2.1 r).1,
         ((walks r).foldl (App.scan_step norm disk
           (fun n => n % 500 == 0 || n == total) total)
           (evs, App.add_root norm db r, processed, att)).2.2.1,
         ((walks r).foldl (App.scan_step norm disk
           (fun n => n % 500 == 0 || n == total) total)
           (evs, App.add_root norm db r, processed, att)).2.2.2) := rfl
    rw [hstep, ha, hb]
    obtain ⟨ha2, hb2, hc2, hd2, ts2, hts2, hall2⟩ :=
      ih (((walks r).foldl (App.scan_step norm disk
            (fun n => n % 500 == 0 || n == total) total)
            (evs, App.add_root norm db r, processed, att)).1)
        ((App.remove_missing_under norm disk
           ((walks r).foldl (App.scan_step norm disk
             (fun n => n % 500 == 0 || n == total) total)
             (evs, App.add_root norm db r, processed, att)).2.1 r).1)
        (processed + (walks r).length)
        (att ++ (walks r).map (fun we => we.path))
        hc hd
    refine ⟨?_, ?_, ?_, hd2, ?_⟩
    · rw [ha2]
      simp only [List.map_cons, List.sum_cons]
      omega
    · rw [hb2]
      simp [List.append_assoc]
    · intro q hq
      have := hc2 q hq
      simp only [List.map_cons, List.sum_cons]
      omega
    · refine ⟨ts1 ++ ts2, ?_, ?_⟩
      · rw [hts2, hts1, List.append_assoc]
      · intro e he
        rcases List.mem_append.mp he with h | h
        · exact hall1 e h
        · exact hall2 e h

/-- An event trace consisting of a start event, tick events only, and one
    final completion event contains the completion event exactly once. -/
theorem count_finished_of_ticks (n : Nat) (ts : List Event)
    (h : ∀ e ∈ ts, ∃ a b, e = Event.tick a b) :
    (Event.started n :: ts ++ [Event.finished]).count Event.finished = 1 := by
  have hts : ts.count Event.finished = 0 := by
    rw [List.count_eq_zero]
    intro hmem
    obtain ⟨a, b, he⟩ := h _ hmem
    exact Event.noConfusion he
  simp [List.count_cons, List.count_append, hts]

/-- Claim C8: for every walk actually started — `index_selected_root` when
    the short-circuit does not fire, and `rescan_all_roots` with at least
    one registered root — the completion signal is emitted exactly once,
    even though individual per-file upserts may raise (their failures are
    swallowed): every walked file's upsert is attempted, the processed
    counter reaches the walk length, and the progress ticks are strictly
    increasing. -/
theorem claim_C8 (norm : String → String) (disk : Disk) (walk : List WalkEntry)
    (db : DB) (root : String)
    (hsc : ¬ ((App.walk_count_and_max_mtime disk walk).1 =
        (App.db_count_and_max_mtime_under norm db (norm root)).1 ∧
      (App.db_count_and_max_mtime_under norm db (norm root)).2 ≥
        (App.walk_count_and_max_mtime disk walk).2))
    (walks : String → List WalkEntry) (db2 : DB) (hroots : ¬ db2.roots = []) :
    ((App.index_selected_root norm disk walk db root).1.count Event.finished = 1 ∧
      (App.index_selected_root norm disk walk db root).2.2.2 =
        walk.map (fun we => we.path) ∧
      (App.index_selected_root norm disk walk db root).2.2.1 = walk.length ∧
      List.Chain' (· < ·)
        (ticksOf (App.index_selected_root norm disk walk db root).1)) ∧
    ((App.rescan_all_roots norm disk walks db2).1.count Event.finished = 1 ∧
      (App.rescan_all_roots norm disk walks db2).2.2.2 =
        ((db2.roots.map norm).eraseDups.map
          (fun r => (walks r).map (fun we => we.path))).join ∧
      List.Chain' (· < ·)
        (ticksOf (App.rescan_all_roots norm disk walks db2).1)) := by
  have hidx : App.index_selected_root norm disk walk db root =
      (Event.started (App.walk_count_and_max_mtime disk walk).1 ::
         (walk.foldl (App.scan_step norm disk
             (fun n => n % max 1 ((App.walk_count_and_max_mtime disk walk).1 / 100) == 0
               || n == (App.walk_count_and_max_mtime disk walk).1)
             (App.walk_count_and_max_mtime disk walk).1)
           ([], App.add_root norm db (norm root), 0, [])).1 ++ [Event.finished],
       (App.remove_missing_under norm disk
         (walk.foldl (App.scan_step norm disk
             (fun n => n % max 1 ((App.walk_count_and_max_mtime disk walk).1 / 100) == 0
               || n == (App.walk_count_and_max_mtime disk walk).1)
             (App.walk_count_and_max_mtime disk walk).1)
           ([], App.add_root norm db (norm root), 0, [])).2.1 (norm root)).1,
       (walk.foldl (App.scan_step norm disk
             (fun n => n % max 1 ((App.walk_count_and_max_mtime disk walk).1 / 100) == 0
               || n == (App.walk_count_and_max_mtime disk walk).1)
             (App.walk_count_and_max_mtime disk walk).1)
           ([], App.add_root norm db (norm root), 0, [])).2.2.1,
       (walk.foldl (App.scan_step norm disk
             (fun n => n % max 1 ((App.walk_count_and_max_mtime disk walk).1 / 100) == 0
               || n == (App.walk_count_and_max_mtime disk walk).1)
             (App.walk_count_and_max_mtime disk walk).1)
           ([], App.add_root norm db (norm root), 0, [])).2.2.2) := by
    rw [App.index_selected_root]
    dsimp only
    rw [if_neg hsc]
  obtain ⟨ha, hb, hc, hd, ts, hts, hall⟩ :=
    scan_fold_spec norm disk
      (fun n => n % max 1 ((App.walk_count_and_max_mtime disk walk).1 / 100) == 0
        || n == (App.walk_count_and_max_mtime disk walk).1)
      (App.walk_count_and_max_mtime disk walk).1
      walk [] (App.add_root norm db (norm root)) 0 []
      (by intro q hq; simp [ticksOf] at hq)
      List.chain'_nil
  have hres : App.rescan_all_roots norm disk walks db2 =
      (Event.started
          (if ((db2.roots.map norm).eraseDups.map (fun r => (walks r).length)).sum > 0
            then ((db2.roots.map norm).eraseDups.map (fun r => (walks r).length)).sum
            else 1) ::
         ((db2.roots.map norm).eraseDups.foldl (App.rescan_root_step norm disk walks
             ((db2.roots.map norm).eraseDups.map (fun r => (walks r).length)).sum)
           ([], db2, 0, [])).1 ++ [Event.finished],
       ((db2.roots.map norm).eraseDups.foldl (App.rescan_root_step norm disk walks
           ((db2.roots.map norm).eraseDups.map (fun r => (walks r).length)).sum)
         ([], db2, 0, [])).2.1,
       ((db2.roots.map norm).eraseDups.foldl (App.rescan_root_step norm disk walks
           ((db2.roots.map norm).eraseDups.map (fun r => (walks r).length)).sum)
         ([], db2, 0, [])).2.2.1,
       ((db2.roots.map norm).eraseDups.foldl (App.rescan_root_step norm disk walks
           ((db2.roots.map norm).eraseDups.map (fun r => (walks r).length)).sum)
         ([], db2, 0, [])).2.2.2) := by
    rw [App.rescan_all_roots]
    dsimp only
    rw [if_neg hroots]
  obtain ⟨ha2, hb2, hc2, hd2, ts2, hts2, hall2⟩ :=
    rescan_fold_spec norm disk walks
      ((db2.roots.map norm).eraseDups.map (fun r => (walks r).length)).sum
      (db2.roots.map norm).eraseDups [] db2 0 []
      (by intro q hq; simp [ticksOf] at hq)
      List.chain'_nil
  constructor
  · rw [hidx]
    refine ⟨?_, ?_, ?_, ?_⟩
    · show (Event.started _ :: _ ++ [Event.finished]).count Event.finished = 1
      rw [hts, List.nil_append]
      exact count_finished_of_ticks _ ts hall
    · show _ = walk.map (fun we => we.path)
      rw [hb, List.nil_append]
    · show _ = walk.length
      rw [ha, Nat.zero_add]
    · show List.Chain' (· < ·)
        (ticksOf ((walk.foldl (App.scan_step norm disk
             (fun n => n % max 1 ((App.walk_count_and_max_mtime disk walk).1 / 100) == 0
               || n == (App.walk_count_and_max_mtime disk walk).1)
             (App.walk_count_and_max_mtime disk walk).1)
           ([], App.add_root norm db (norm root), 0, [])).1 ++ [Event.finished]))
      rw [ticksOf_append]
      show List.Chain' (· < ·)
        (ticksOf (walk.foldl (App.scan_step norm disk
             (fun n => n % max 1 ((App.walk_count_and_max_mtime disk walk).1 / 100) == 0
               || n == (App.walk_count_and_max_mtime disk walk).1)
             (App.walk_count_and_max_mtime disk walk).1)
           ([], App.add_root norm db (norm root), 0, [])).1 ++ [])
      rw [List.append_nil]
      exact hd
  · rw [hres]
    refine ⟨?_, ?_, ?_⟩
    · show (Event.started _ :: _ ++ [Event.finished]).count Event.finished = 1
      rw [hts2, List.nil_append]
      exact count_finished_of_ticks _ ts2 hall2
    · show _ = ((db2.roots.map norm).eraseDups.map
        (fun r => (walks r).map (fun we => we.path))).join
      rw [hb2, List.nil_append]
    · show List.Chain' (· < ·)
        (ticksOf (((db2.roots.map norm).eraseDups.foldl (App.rescan_root_step norm disk walks
             ((db2.roots.map norm).eraseDups.map (fun r => (walks r).length)).sum)
           ([], db2, 0, [])).1 ++ [Event.finished]))
      rw [ticksOf_append]
      show List.Chain' (· < ·)
        (ticksOf ((db2.roots.map norm).eraseDups.foldl (App.rescan_root_step norm disk walks
             ((db2.roots.map norm).eraseDups.map (fun r => (walks r).length)).sum)
           ([], db2, 0, [])).1 ++ [])
      rw [List.append_nil]
      exact hd2

/-- Claim C8, witness: a one-file walk over an empty catalog does not
    short-circuit, and a rescan-all with a registered root runs; each
    emits the completion signal exactly once. -/
theorem claim_C8_witness :
    (¬ ((App.walk_count_and_max_mtime ([⟨"/r/f", 3, 7⟩] : Disk)
          [⟨"/r/f", false, false⟩]).1 =
        (App.db_count_and_max_mtime_under id dbEmpty (id ("/r"))).1 ∧
      (App.db_count_and_max_mtime_under id dbEmpty (id ("/r"))).2 ≥
        (App.walk_count_and_max_mtime ([⟨"/r/f", 3, 7⟩] : Disk)
          [⟨"/r/f", false, false⟩]).2)) ∧
    ¬ dbC1.roots = [] ∧
    (App.index_selected_root id ([⟨"/r/f", 3, 7⟩] : Disk)
        [⟨"/r/f", false, false⟩] dbEmpty ("/r")).1.count Event.finished = 1 ∧
    (App.rescan_all_roots id ([⟨"/r/f", 3, 7⟩] : Disk)
        (fun _ : String => ([] : List WalkEntry)) dbC1).1.count Event.finished = 1 := by
  refine ⟨by decide, by decide, ?_, ?_⟩
  · exact (claim_C8 id ([⟨"/r/f", 3, 7⟩] : Disk) [⟨"/r/f", false, false⟩]
      dbEmpty ("/r") (by decide) (fun _ : String => ([] : List WalkEntry)) dbC1
      (by decide)).1.1
  · exact (claim_C8 id ([⟨"/r/f", 3, 7⟩] : Disk) [⟨"/r/f", false, false⟩]
      dbEmpty ("/r") (by decide) (fun _ : String => ([] : List WalkEntry)) dbC1
      (by decide)).2.1

/-- `add_root` touches only the `roots` table. -/
theorem add_root_frame (norm : String → String) (db : DB) (path : String) :
    (App.add_root norm db path).files = db.files ∧
    (App.add_root norm db path).fileTags = db.fileTags ∧
    (App.add_root norm db path).nextFileId = db.nextFileId := by
  rw [App.add_root]
  by_cases h : db.roots.contains (norm path) = true
  · rw [if_pos h]
    exact ⟨rfl, rfl, rfl⟩
  · rw [if_neg h]
    exact ⟨rfl, rfl, rfl⟩

/-- `upsert_file` never touches `file_tags`, never lowers the id supply,
    and every row afterwards either keeps the id and path of a
    pre-existing row or is newly inserted with a fresh id. -/
theorem upsert_file_frame (norm : String → String) (disk : Disk) (db : DB)
    (p : String) :
    (App.upsert_file norm disk db p).fileTags = db.fileTags ∧
    db.nextFileId ≤ (App.upsert_file norm disk db p).nextFileId ∧
    ∀ g ∈ (App.upsert_file norm disk db p).files,
      (∃ r ∈ db.files, g.id = r.id ∧ g.path = r.path) ∨ db.nextFileId ≤ g.id := by
  rw [App.upsert_file]
  cases hd : diskFind disk p with
  | none =>
    exact ⟨rfl, le_refl _, fun g hg => Or.inl ⟨g, hg, rfl, rfl⟩⟩
  | some st =>
    dsimp only
    cases hf : List.find? (fun r => r.path = norm p) db.files with
    | some r1 =>
      refine ⟨rfl, le_refl _, ?_⟩
      intro g hg
      rw [List.mem_map] at hg
      obtain ⟨r, hr, hgr⟩ := hg
      left
      refine ⟨r, hr, ?_, ?_⟩
      · rw [← hgr]
        by_cases hc : r.path = norm p <;> simp [hc]
      · rw [← hgr]
        by_cases hc : r.path = norm p <;> simp [hc]
    | none =>
      refine ⟨rfl, Nat.le_succ _, ?_⟩
      intro g hg
      rcases List.mem_append.mp hg with h | h
      · exact Or.inl ⟨g, h, rfl, rfl⟩
      · rw [List.mem_singleton] at h
        subst h
        exact Or.inr (le_refl _)

/-- Across a whole scan loop, `file_tags` is untouched, the id supply
    never decreases, and every file row either keeps the id and path of a
    pre-scan row or carries a fresh id. -/
theorem scan_fold_db (norm : String → String) (disk : Disk) (emit : Nat → Bool)
    (total : Nat) :
    ∀ (walk : List WalkEntry) (evs : List Event) (db : DB) (processed : Nat)
      (att : List String),
    ((walk.foldl (App.scan_step norm disk emit total)
        (evs, db, processed, att)).2.1.fileTags = db.fileTags ∧
      db.nextFileId ≤ (walk.foldl (App.scan_step norm disk emit total)
        (evs, db, processed, att)).2.1.nextFileId ∧
      ∀ g ∈ (walk.foldl (App.scan_step norm disk emit total)
          (evs, db, processed, att)).2.1.files,
        (∃ r ∈ db.files, g.id = r.id ∧ g.path = r.path) ∨
          db.nextFileId ≤ g.id) := by
  intro walk
  induction walk with
  | nil =>
    intro evs db processed att
    rw [List.foldl_nil]
    exact ⟨rfl, le_refl _, fun g hg => Or.inl ⟨g, hg, rfl, rfl⟩⟩
  | cons we ws ih =>
    intro evs db processed att
    rw [List.foldl_cons]
    have hstep : App.scan_step norm disk emit total (evs, db, processed, att) we =
        ((if emit (processed + 1) = true
            then evs ++ [Event.tick (processed + 1) total] else evs),
         (if we.upsertFails = true then db else App.upsert_file norm disk db we.path),
         processed + 1, att ++ [we.path]) := rfl
    rw [hstep]
    obtain ⟨ha1, ha2, ha3⟩ := ih
      (if emit (processed + 1) = true
        then evs ++ [Event.tick (processed + 1) total] else evs)
      (if we.upsertFails = true then db else App.upsert_file norm disk db we.path)
      (processed + 1) (att ++ [we.path])
    obtain ⟨hb1, hb2, hb3⟩ :
        (if we.upsertFails = true then db
          else App.upsert_file norm disk db we.path).fileTags = db.fileTags ∧
        db.nextFileId ≤ (if we.upsertFails = true then db
          else App.upsert_file norm disk db we.path).nextFileId ∧
        ∀ g ∈ (if we.upsertFails = true then db
            else App.upsert_file norm disk db we.path).files,
          (∃ r ∈ db.files, g.id = r.id ∧ g.path = r.path) ∨
            db.nextFileId ≤ g.id := by
      by_cases hupf : we.upsertFails = true
      · rw [if_pos hupf]
        exact ⟨rfl, le_refl _, fun g hg => Or.inl ⟨g, hg, rfl, rfl⟩⟩
      · rw [if_neg hupf]
        exact upsert_file_frame norm disk db we.path
    refine ⟨ha1.trans hb1, le_trans hb2 ha2, ?_⟩
    intro g hg
    rcases ha3 g hg with ⟨r2, hr2, hid, hpath2⟩ | hge
    · rcases hb3 r2 hr2 with ⟨r, hr, hid2, hpath3⟩ | hge2
      · exact Or.inl ⟨r, hr, hid.trans hid2, hpath2.trans hpath3⟩
      · rw [hid]
        exact Or.inr hge2
    · exact Or.inr (le_trans hb2 hge)

/-- A `file_tags` pair survives `remove_missing_under` when no file row
    sharing its file id is missing on disk. -/
theorem pair_survives_prune (norm : String → String) (disk : Disk)
    (dbw : DB) (root : String) (fid tid : Nat)
    (hft : (fid, tid) ∈ dbw.fileTags)
    (hnog : ∀ g ∈ dbw.files, g.id = fid → ¬ (diskFind disk g.path).isNone = true) :
    (fid, tid) ∈ (App.remove_missing_under norm disk dbw root).1.fileTags := by
  show (fid, tid) ∈ dbw.fileTags.filter (fun q =>
    !((dbw.files.filter (fun f =>
        likeMatch none ((norm root).data ++ ['%']) f.path.data &&
        (diskFind disk f.path).isNone)).any (fun g => g.id = q.1)))
  apply List.mem_filter.mpr
  refine ⟨hft, ?_⟩
  rw [Bool.not_eq_true']
  rw [List.any_eq_false]
  intro g hg
  have hg2 := List.mem_filter.mp hg
  have hnone := (Bool.and_eq_true _ _ |>.mp hg2.2).2
  intro hdec
  have hgid : g.id = fid := by simpa using hdec
  exact hnog g hg2.1 hgid hnone

/-- Claim C10: upserting an already-catalogued path updates size and mtime
    in place — the list of row ids is unchanged, `file_tags` is untouched,
    and the existing row reappears with the new stat data under its old
    id.  Consequently a file-tag association of a file still present on
    disk survives a whole rescan of its root (`index_selected_root`),
    whether or not the rescan short-circuits, given the primary-key
    invariants (distinct row ids below the id supply). -/
theorem claim_C10 (norm : String → String) (disk : Disk) (db : DB) (p : String)
    (st : DiskFile) (r0 : FileRow)
    (hdisk : diskFind disk p = some st)
    (hr0 : r0 ∈ db.files) (hpath : r0.path = norm p) :
    ((App.upsert_file norm disk db p).files.map (fun r => r.id) =
        db.files.map (fun r => r.id) ∧
      (App.upsert_file norm disk db p).fileTags = db.fileTags ∧
      ({ r0 with size := st.size, mtime := st.mtime } : FileRow) ∈
        (App.upsert_file norm disk db p).files) ∧
    (∀ (walk : List WalkEntry) (root : String) (fid tid : Nat) (rf : FileRow),
      db.files.Pairwise (fun a b => a.id ≠ b.id) →
      (∀ r ∈ db.files, r.id < db.nextFileId) →
      (fid, tid) ∈ db.fileTags → rf ∈ db.files → rf.id = fid →
      (diskFind disk rf.path).isSome = true →
      (fid, tid) ∈ (App.index_selected_root norm disk walk db root).2.1.fileTags) := by
  constructor
  · rw [App.upsert_file, hdisk]
    dsimp only
    cases hf : List.find? (fun r => r.path = norm p) db.files with
    | none =>
      have := List.find?_eq_none.mp hf r0 hr0
      simp [hpath] at this
    | some r1 =>
      refine ⟨?_, rfl, ?_⟩
      · rw [List.map_map]
        apply List.map_congr_left
        intro a _
        by_cases hc : a.path = norm p <;> simp [Function.comp, hc]
      · have hmm := List.mem_map_of_mem
          (fun r => if r.path = norm p
            then ({ r with size := st.size, mtime := st.mtime } : FileRow) else r) hr0
        dsimp only at hmm
        rw [if_pos hpath] at hmm
        exact hmm
  · intro walk root fid tid rf hids hctr hft hrfmem hrfid hrfdisk
    by_cases hifc : (App.walk_count_and_max_mtime disk walk).1 =
        (App.db_count_and_max_mtime_under norm db (norm root)).1 ∧
        (App.db_count_and_max_mtime_under norm db (norm root)).2 ≥
        (App.walk_count_and_max_mtime disk walk).2
    · rw [App.index_selected_root]
      dsimp only
      rw [if_pos hifc]
      exact hft
    · rw [App.index_selected_root]
      dsimp only
      rw [if_neg hifc]
      dsimp only
      refine pair_survives_prune norm disk _ (norm root) fid tid ?_ ?_
      · rw [(scan_fold_db norm disk _ _ walk [] (App.add_root norm db (norm root)) 0 []).1,
          (add_root_frame norm db (norm root)).2.1]
        exact hft
      · intro g hgmem hgid hgnone
        rcases (scan_fold_db norm disk _ _ walk []
            (App.add_root norm db (norm root)) 0 []).2.2 g hgmem with
          ⟨r, hr, hid, hp2⟩ | hge
        · rw [(add_root_frame norm db (norm root)).1] at hr
          have hreq : r = rf := by
            by_contra hneq
            exact (hids.forall (fun a b hab => (hab ·.symm)) hr hrfmem hneq)
              (by rw [← hid, hgid, ← hrfid])
          rw [hp2, hreq] at hgnone
          rw [Option.isNone_iff_eq_none] at hgnone
          rw [hgnone] at hrfdisk
          simp at hrfdisk
        · rw [(add_root_frame norm db (norm root)).2.2] at hge
          have := hctr rf hrfmem
          omega

/-- Catalog with one tagged file under the registered root `/r`. -/
def dbC10 : DB :=
  { files := [⟨1, "/r/f", 3, 7, none⟩], tags := [⟨5, "t", 1⟩],
    fileTags := [(1, 5)], roots := ["/r"], nextFileId := 2, nextTagId := 6 }

/-- Claim C10, witness: after the file's mtime changes on disk, a rescan
    upserts in place (ids unchanged) and the file's tag association
    survives the rescan. -/
theorem claim_C10_witness :
    diskFind ([⟨"/r/f", 3, 9⟩] : Disk) ("/r/f") = some ⟨"/r/f", 3, 9⟩ ∧
    (App.upsert_file id ([⟨"/r/f", 3, 9⟩] : Disk) dbC10 ("/r/f")).files.map
        (fun r => r.id) = dbC10.files.map (fun r => r.id) ∧
    ((1 : Nat), (5 : Nat)) ∈ (App.index_selected_root id ([⟨"/r/f", 3, 9⟩] : Disk)
        [⟨"/r/f", false, false⟩] dbC10 ("/r")).2.1.fileTags := by
  have h := claim_C10 id ([⟨"/r/f", 3, 9⟩] : Disk) dbC10 ("/r/f") ⟨"/r/f", 3, 9⟩
    ⟨1, "/r/f", 3, 7, none⟩ (by decide) (by decide) (by decide)
  exact ⟨by decide, h.1.1, h.2 [⟨"/r/f", false, false⟩] ("/r") 1 5
    ⟨1, "/r/f", 3, 7, none⟩ (by decide) (by decide) (by decide) (by decide)
    (by decide) (by decide)⟩
